import Mathlib

set_option autoImplicit false

/-!
A verification development for `tools/update_model_repo.py`: a shallow
embedding of the script's two operations, `copyUpdatedModels` (mirror new or
changed STL model files from a source tree into a destination tree) and
`updateMapFile` (walk the destination tree and merge every model file into a
JSON component map), together with theorems about them.

Paths are modelled as lists of components (all paths the script manipulates
are made absolute with `os.path.abspath` before use).  The filesystem is a
finite set of directories and regular files; a regular file carries its byte
content and its modification time, which is what `filecmp.cmp` and
`shutil.copy2` observe.  `os.walk` is modelled by its observable output: the
(directory, filename, data) triples of the regular files lying under the
walked root, and — because the script leaves `os.walk`'s `onerror` at its
default `None`, which swallows the `os.listdir` error — an empty output when
the walked root does not exist.
-/

namespace UpdateModelRepo

/-- An absolute filesystem path, as its list of components. -/
abbrev Path := List String

/-- What the script observes of a regular file: its byte content and its
modification time (`st_mtime`). -/
structure FileData where
  content : List Nat
  mtime : Nat
deriving DecidableEq, Repr

/-- A filesystem: the existing directories and the existing regular files. -/
structure FileSys where
  dirs : List Path
  files : List (Path × FileData)
deriving DecidableEq, Repr

/-! ### `os.path.splitext` -/

/-- Index of the last `.` in a list of characters, if any. -/
def lastDotIdx (cs : List Char) : Option Nat :=
  ((List.range cs.length).filter (fun i => cs.get? i == some '.')).getLast?

/-- `os.path.splitext` on a list of characters: split at the last dot,
except that a run of leading dots never starts an extension. -/
def splitextChars (cs : List Char) : List Char × List Char :=
  match lastDotIdx cs with
  | none => (cs, [])
  | some d =>
      if (List.range d).any (fun j => cs.get? j != some '.') then
        (cs.take d, cs.drop d)
      else (cs, [])

/-- `os.path.splitext` on a bare filename (one with no directory separator,
as yielded by `os.walk`): `"a.stl"` becomes `("a", ".stl")`, while a pure
dotfile such as `".stl"` keeps its whole name as the stem and has an empty
extension. -/
def splitext (s : String) : String × String :=
  let p := splitextChars s.data
  (String.mk p.1, String.mk p.2)

/-- The extension list `['.stl', '.STL']` both loops test against. -/
def modelExts : List String := [".stl", ".STL"]

/-- The test `ext in ['.stl', '.STL']` applied to a filename: true exactly
when the `os.path.splitext` extension is `.stl` or `.STL` (case-sensitive). -/
def isModelName (filename : String) : Bool :=
  decide ((splitext filename).2 ∈ modelExts)

/-! ### `os.path.relpath` and joining -/

/-- Length of the longest common prefix of two component lists
(`os.path.commonprefix` applied to split paths, as `os.path.relpath`
uses it). -/
def commonPrefixLen : List String → List String → Nat
  | a :: as, b :: bs => if a = b then commonPrefixLen as bs + 1 else 0
  | _, _ => 0

/-- `os.path.relpath path start` on absolute component lists: climb out of
the non-shared part of `start` with `..` segments, then descend into the
non-shared part of `path`. -/
def relpathList (path start : List String) : List String :=
  List.replicate (start.length - commonPrefixLen start path) ".." ++
    path.drop (commonPrefixLen start path)

/-- Join the components `os.path.relpath` returns into the string it
returns (`.` for the empty relative path). -/
def pathString (l : List String) : String :=
  if l = [] then "." else String.intercalate "/" l

/-! ### Filesystem primitives -/

/-- First stored file at path `p` in a file list. -/
def lookupIn : List (Path × FileData) → Path → Option FileData
  | [], _ => none
  | q :: rest, p => if q.1 = p then some q.2 else lookupIn rest p

/-- Drop every stored file at path `p` from a file list. -/
def removeKey : List (Path × FileData) → Path → List (Path × FileData)
  | [], _ => []
  | q :: rest, p => if q.1 = p then removeKey rest p else q :: removeKey rest p

/-- Look up the regular file at a path (`os.path.exists` plus reading). -/
def fileLookup (fs : FileSys) (p : Path) : Option FileData :=
  lookupIn fs.files p

/-- `os.path.exists`-style test for a directory. -/
def dirExists (fs : FileSys) (p : Path) : Bool := fs.dirs.contains p

/-- `shutil.copy2` preceded by the script's conditional `os.makedirs`:
write `data` (content and modification time — `copy2` preserves metadata) at
path `p`, overwriting any file already there and creating the containing
directory entry `d` if missing. -/
def writeFile (fs : FileSys) (d p : Path) (data : FileData) : FileSys :=
  { dirs := if fs.dirs.contains d then fs.dirs else d :: fs.dirs,
    files := (p, data) :: removeKey fs.files p }

/-- `filecmp.cmp(f1, f2)` at its default `shallow=True`: if the stat
signatures (size, mtime) agree, the files are reported equal without their
contents being read; otherwise the sizes and then the contents are
compared. -/
def filecmpCmp (a b : FileData) : Bool :=
  (a.content.length == b.content.length && a.mtime == b.mtime) ||
    a.content == b.content

/-- The walk entry `os.walk` contributes for one stored file `q`, when
walking `root`: the containing directory (`os.walk`'s `root` variable), the
filename, and the file's data — provided the file lies under the walked
root. -/
def walkEntry (root : Path) (q : Path × FileData) :
    Option (Path × String × FileData) :=
  match q.1.reverse with
  | [] => none
  | name :: rdir =>
      if (rdir.reverse).take root.length = root then
        some (rdir.reverse, name, q.2)
      else none

/-- The files yielded by `os.walk root`: every regular file lying under
`root`.  With the default `onerror=None`, a nonexistent `root` makes
`os.walk` swallow the `os.listdir` error and yield nothing. -/
def osWalk (fs : FileSys) (root : Path) : List (Path × String × FileData) :=
  if dirExists fs root then fs.files.filterMap (walkEntry root) else []

/-! ### The model copier (`copyUpdatedModels`) -/

/-- The copy condition of line 27: copy when no destination file exists, or
when `filecmp.cmp` reports the source and destination as different. -/
def needsCopy (fs : FileSys) (p : Path) (data : FileData) : Bool :=
  match fileLookup fs p with
  | none => true
  | some d => !(filecmpCmp data d)

/-- The body of `copyUpdatedModels`'s loop for one walked file: for a model
file, mirror the directory's path relative to `source_root` under
`destination_root` and copy when required; returns the updated filesystem
and the copied destination path, if a copy was performed. -/
def copyOne (source_root destination_root : Path) (fs : FileSys)
    (t : Path × String × FileData) : FileSys × Option Path :=
  let root := t.1
  let filename := t.2.1
  let ext := (splitext filename).2
  if ext ∈ modelExts then
    let destination_abs_dir := destination_root ++ relpathList root source_root
    let model_destination_file_path := destination_abs_dir ++ [filename]
    if needsCopy fs model_destination_file_path t.2.2 then
      (writeFile fs destination_abs_dir model_destination_file_path t.2.2,
        some model_destination_file_path)
    else (fs, none)
  else (fs, none)

/-- Fold `copyOne` over a walk list, threading the filesystem and
collecting the copied destination paths in order. -/
def copyRun (source_root destination_root : Path) (fs : FileSys) :
    List (Path × String × FileData) → FileSys × List Path
  | [] => (fs, [])
  | t :: rest =>
      let r := copyOne source_root destination_root fs t
      let s := copyRun source_root destination_root r.1 rest
      (s.1, r.2.toList ++ s.2)

/-- `copyUpdatedModels(source_root, destination_root)`: walk the source
tree and copy every new or changed model file to its mirrored path under
the destination root.  Returns the resulting filesystem and the list of
destination paths that received a copy. -/
def copyUpdatedModels (fs : FileSys) (source_root destination_root : Path) :
    FileSys × List Path :=
  copyRun source_root destination_root fs (osWalk fs source_root)

/-- The destination path `copyOne` mirrors a walked file to. -/
def dstPathOf (source_root destination_root : Path)
    (t : Path × String × FileData) : Path :=
  destination_root ++ relpathList t.1 source_root ++ [t.2.1]

/-! ### The map updater (`updateMapFile`) -/

/-- A record of the component map: the JSON object stored under a model
name.  Either field may be absent in a map loaded from disk; the script
itself always writes a `filename`. -/
structure Entry where
  filename : Option String
  duplicates : Option (List String)
deriving DecidableEq, Repr

/-- The component map: a JSON object from model names to records, as an
association list. -/
abbrev CMap := List (String × Entry)

/-- First record stored under key `k`, if any (Python dict lookup). -/
def mapLookup : CMap → String → Option Entry
  | [], _ => none
  | q :: rest, k => if q.1 = k then some q.2 else mapLookup rest k

/-- Replace the record at the first occurrence of key `k` (Python dict
assignment to an existing key); leaves the map unchanged if `k` is
absent. -/
def mapSet : CMap → String → Entry → CMap
  | [], _, _ => []
  | q :: rest, k, e => if q.1 = k then (k, e) :: rest else q :: mapSet rest k e

/-- The `duplicates` list of a record, read as `setdefault` reads it:
an absent field reads as the empty list. -/
def dupGet (e : Entry) : List String := e.duplicates.getD []

/-- The body of `updateMapFile`'s walk loop for one file `(root, filename)`
of the destination tree: for a model file, compute the file's path relative
to the map file's directory and merge it into the map.  The unguarded
access `component_map[model_name]["filename"]` raises `KeyError` when the
matched record has no `"filename"` field; this is modelled as
`Except.error`. -/
def updateStep (map_dir : Path) (m : CMap) (f : Path × String) :
    Except Unit CMap :=
  let root := f.1
  let filename := f.2
  let model_name := (splitext filename).1
  let ext := (splitext filename).2
  if ext ∈ modelExts then
    let model_file_relpath :=
      pathString (relpathList (root ++ [filename]) map_dir)
    match mapLookup m model_name with
    | some e =>
        match e.filename with
        | none => .error ()
        | some fn =>
            if fn ≠ model_file_relpath then
              let dupes := dupGet e
              if model_file_relpath ∈ dupes then
                .ok (mapSet m model_name
                      { filename := e.filename, duplicates := some dupes })
              else
                .ok (mapSet m model_name
                      { filename := e.filename,
                        duplicates := some (dupes ++ [model_file_relpath]) })
            else .ok m
    | none =>
        .ok (m ++ [(model_name,
              { filename := some model_file_relpath, duplicates := none })])
  else .ok m

/-- The walk loop of `updateMapFile`: fold `updateStep` over the walked
files, propagating a raised `KeyError`. -/
def processWalk (map_dir : Path) : CMap → List (Path × String) →
    Except Unit CMap
  | m, [] => .ok m
  | m, f :: rest =>
      match updateStep map_dir m f with
      | .error u => .error u
      | .ok m' => processWalk map_dir m' rest

/-- The `(root, filename)` pairs of a destination-tree walk. -/
def walkNames (fs : FileSys) (root : Path) : List (Path × String) :=
  (osWalk fs root).map (fun t => (t.1, t.2.1))

/-- `updateMapFile(map_file_path, destination_root)`: start from the map
loaded from disk when the map file exists (else from `{}`), walk the
destination tree merging every model file, and return the map that
`json.dump` then writes back.  `disk` is the parsed prior content of the
map file, `none` when the file does not exist.  An error (a `KeyError`
raised inside the loop) aborts before anything is written. -/
def updateMapFile (disk : Option CMap) (map_file_path : Path) (fs : FileSys)
    (destination_root : Path) : Except Unit CMap :=
  processWalk map_file_path.dropLast (disk.getD []) (walkNames fs destination_root)

/-- The relative path `updateStep` stores for a walked file: the file's
absolute path made relative to the map file's directory. -/
def relOf (map_dir : Path) (f : Path × String) : String :=
  pathString (relpathList (f.1 ++ [f.2]) map_dir)

/-- The model name of a walked file (the `os.path.splitext` stem). -/
def stemOf (f : Path × String) : String := (splitext f.2).1

/-- Whether a walked file is a model file. -/
def isModelFile (f : Path × String) : Bool := isModelName f.2

/-- The model names of the model files of a walk list, in walk order. -/
def modelNames (l : List (Path × String)) : List String :=
  l.filterMap (fun f => if isModelFile f then some (stemOf f) else none)

/-- All relative paths recorded in an entry: the canonical `filename`
followed by the `duplicates`. -/
def storedPaths (e : Entry) : List String :=
  e.filename.toList ++ dupGet e

end UpdateModelRepo

namespace UpdateModelRepo

/-! ### Basic lemmas about the lookup structures -/

theorem lookupIn_removeKey : ∀ (l : List (Path × FileData)) (p q : Path),
    q ≠ p → lookupIn (removeKey l p) q = lookupIn l q
  | [], _, _, _ => rfl
  | a :: rest, p, q, h => by
      by_cases hap : a.1 = p
      · rw [removeKey, if_pos hap, lookupIn_removeKey rest p q h, lookupIn,
          if_neg (fun hq => h (hq.symm.trans hap))]
      · rw [removeKey, if_neg hap, lookupIn, lookupIn]
        by_cases haq : a.1 = q
        · rw [if_pos haq, if_pos haq]
        · rw [if_neg haq, if_neg haq, lookupIn_removeKey rest p q h]

theorem fileLookup_writeFile (fs : FileSys) (d p q : Path) (data : FileData) :
    fileLookup (writeFile fs d p data) q =
      if q = p then some data else fileLookup fs q := by
  by_cases hq : q = p
  · subst hq
    simp [fileLookup, writeFile, lookupIn]
  · rw [if_neg hq]
    show lookupIn ((p, data) :: removeKey fs.files p) q = fileLookup fs q
    rw [lookupIn, if_neg (fun hpq => hq hpq.symm), lookupIn_removeKey _ _ _ hq]
    rfl

theorem mapLookup_set_self : ∀ (m : CMap) (k : String) (e e0 : Entry),
    mapLookup m k = some e0 → mapLookup (mapSet m k e) k = some e
  | [], _, _, _, h => by simp [mapLookup] at h
  | q :: rest, k, e, e0, h => by
      by_cases hq : q.1 = k
      · rw [mapSet, if_pos hq, mapLookup, if_pos rfl]
      · rw [mapLookup, if_neg hq] at h
        rw [mapSet, if_neg hq, mapLookup, if_neg hq,
          mapLookup_set_self rest k e e0 h]

theorem mapLookup_set_other : ∀ (m : CMap) (k k' : String) (e : Entry),
    k' ≠ k → mapLookup (mapSet m k e) k' = mapLookup m k'
  | [], _, _, _, _ => rfl
  | q :: rest, k, k', e, h => by
      by_cases hq : q.1 = k
      · rw [mapSet, if_pos hq, mapLookup, if_neg (fun hk => h hk.symm),
          mapLookup, if_neg (fun hk => h (hq.symm.trans hk).symm)]
      · rw [mapSet, if_neg hq, mapLookup, mapLookup]
        by_cases hq' : q.1 = k'
        · rw [if_pos hq', if_pos hq']
        · rw [if_neg hq', if_neg hq', mapLookup_set_other rest k k' e h]

theorem mapSet_self : ∀ (m : CMap) (k : String) (e : Entry),
    mapLookup m k = some e → mapSet m k e = m
  | [], _, _, h => by simp [mapLookup] at h
  | q :: rest, k, e, h => by
      by_cases hq : q.1 = k
      · rw [mapLookup, if_pos hq] at h
        rw [mapSet, if_pos hq]
        cases q with
        | mk k0 e0 =>
            simp only at hq
            cases h
            rw [hq]
      · rw [mapLookup, if_neg hq] at h
        rw [mapSet, if_neg hq, mapSet_self rest k e h]

theorem mapSet_keys : ∀ (m : CMap) (k : String) (e : Entry),
    (mapSet m k e).map Prod.fst = m.map Prod.fst
  | [], _, _ => rfl
  | q :: rest, k, e => by
      by_cases hq : q.1 = k
      · rw [mapSet, if_pos hq]
        simp [hq]
      · rw [mapSet, if_neg hq]
        simp [mapSet_keys rest k e]

theorem mapLookup_append_left : ∀ (m m2 : CMap) (k : String) (e : Entry),
    mapLookup m k = some e → mapLookup (m ++ m2) k = some e
  | [], _, _, _, h => by simp [mapLookup] at h
  | q :: rest, m2, k, e, h => by
      by_cases hq : q.1 = k
      · rw [mapLookup, if_pos hq] at h
        rw [List.cons_append, mapLookup, if_pos hq]
        exact h
      · rw [mapLookup, if_neg hq] at h
        rw [List.cons_append, mapLookup, if_neg hq,
          mapLookup_append_left rest m2 k e h]

theorem mapLookup_append_right : ∀ (m m2 : CMap) (k : String),
    mapLookup m k = none → mapLookup (m ++ m2) k = mapLookup m2 k
  | [], _, _, _ => rfl
  | q :: rest, m2, k, h => by
      by_cases hq : q.1 = k
      · rw [mapLookup, if_pos hq] at h
        exact absurd h (by simp)
      · rw [mapLookup, if_neg hq] at h
        rw [List.cons_append, mapLookup, if_neg hq,
          mapLookup_append_right rest m2 k h]

theorem mapLookup_eq_none_iff : ∀ (m : CMap) (k : String),
    mapLookup m k = none ↔ k ∉ m.map Prod.fst
  | [], k => by simp [mapLookup]
  | q :: rest, k => by
      by_cases hq : q.1 = k
      · rw [mapLookup, if_pos hq]
        simp [hq]
      · rw [mapLookup, if_neg hq]
        simp only [List.map_cons, List.mem_cons]
        rw [mapLookup_eq_none_iff rest k]
        constructor
        · rintro h (h1 | h2)
          · exact hq h1.symm
          · exact h h2
        · intro h h2
          exact h (Or.inr h2)

theorem mapLookup_isSome_iff (m : CMap) (k : String) :
    (mapLookup m k).isSome = true ↔ k ∈ m.map Prod.fst := by
  rcases h : mapLookup m k with _ | e
  · simp only [Option.isSome_none, Bool.false_eq_true, false_iff]
    exact (mapLookup_eq_none_iff m k).mp h
  · simp only [Option.isSome_some, true_iff]
    by_contra hk
    rw [(mapLookup_eq_none_iff m k).mpr hk] at h
    cases h

end UpdateModelRepo

namespace UpdateModelRepo

/-! ### Case lemmas for `updateStep` -/

theorem isModelFile_iff (f : Path × String) :
    isModelFile f = true ↔ (splitext f.2).2 ∈ modelExts := by
  simp [isModelFile, isModelName]

theorem updateStep_not_model (d : Path) (m : CMap) (f : Path × String)
    (h : isModelFile f = false) : updateStep d m f = .ok m := by
  have h' : ¬ (splitext f.2).2 ∈ modelExts := by
    simpa [isModelFile, isModelName] using h
  simp [updateStep, h']

theorem updateStep_fresh (d : Path) (m : CMap) (f : Path × String)
    (h : isModelFile f = true) (hl : mapLookup m (stemOf f) = none) :
    updateStep d m f =
      .ok (m ++ [(stemOf f, ⟨some (relOf d f), none⟩)]) := by
  have h' : (splitext f.2).2 ∈ modelExts := (isModelFile_iff f).mp h
  simp [updateStep, h', stemOf, relOf] at hl ⊢
  rw [hl]

theorem updateStep_keyerror (d : Path) (m : CMap) (f : Path × String)
    (e : Entry) (h : isModelFile f = true)
    (hl : mapLookup m (stemOf f) = some e) (hf : e.filename = none) :
    updateStep d m f = .error () := by
  have h' : (splitext f.2).2 ∈ modelExts := (isModelFile_iff f).mp h
  simp only [stemOf] at hl
  simp only [updateStep, h', if_true, hl]
  simp [hf]

theorem updateStep_same (d : Path) (m : CMap) (f : Path × String)
    (e : Entry) (fn : String) (h : isModelFile f = true)
    (hl : mapLookup m (stemOf f) = some e) (hf : e.filename = some fn)
    (heq : fn = relOf d f) : updateStep d m f = .ok m := by
  have h' : (splitext f.2).2 ∈ modelExts := (isModelFile_iff f).mp h
  simp only [stemOf] at hl
  simp only [updateStep, h', if_true, hl]
  simp [hf, heq, relOf]

theorem entry_eq_of_mem_dupGet (e : Entry) (r : String) (h : r ∈ dupGet e) :
    (⟨e.filename, some (dupGet e)⟩ : Entry) = e := by
  cases e with
  | mk fn dup =>
      cases dup with
      | none => simp [dupGet] at h
      | some l => simp [dupGet]

theorem updateStep_indup (d : Path) (m : CMap) (f : Path × String)
    (e : Entry) (fn : String) (h : isModelFile f = true)
    (hl : mapLookup m (stemOf f) = some e) (hf : e.filename = some fn)
    (hne : fn ≠ relOf d f) (hin : relOf d f ∈ dupGet e) :
    updateStep d m f = .ok m := by
  have h' : (splitext f.2).2 ∈ modelExts := (isModelFile_iff f).mp h
  have hset : mapSet m (stemOf f) ⟨e.filename, some (dupGet e)⟩ = m := by
    rw [entry_eq_of_mem_dupGet e (relOf d f) hin]
    exact mapSet_self m (stemOf f) e hl
  rw [hf] at hset
  simp only [stemOf] at hl hset
  simp only [relOf] at hne hin
  simp only [dupGet] at hin hset
  simp only [updateStep, h', if_true, hl]
  simp [hf, hne, hin, dupGet, hset]

theorem updateStep_append (d : Path) (m : CMap) (f : Path × String)
    (e : Entry) (fn : String) (h : isModelFile f = true)
    (hl : mapLookup m (stemOf f) = some e) (hf : e.filename = some fn)
    (hne : fn ≠ relOf d f) (hnin : relOf d f ∉ dupGet e) :
    updateStep d m f =
      .ok (mapSet m (stemOf f)
            ⟨e.filename, some (dupGet e ++ [relOf d f])⟩) := by
  have h' : (splitext f.2).2 ∈ modelExts := (isModelFile_iff f).mp h
  simp only [stemOf] at hl
  simp only [relOf] at hne hnin
  simp only [dupGet] at hnin
  simp only [updateStep, h', if_true, hl]
  simp [hf, hne, hnin, stemOf, relOf, dupGet]

end UpdateModelRepo

namespace UpdateModelRepo

/-! ### The master specification of one updater step -/

/-- How one walk step changes the map, observed through `mapLookup` at an
arbitrary key `k`: either the lookup is unchanged, or the step's file is a
model file whose name is `k` and it either inserted a fresh record or
appended one new path to the `duplicates` of the existing record — never
touching `filename`. -/
theorem updateStep_spec (d : Path) (m m' : CMap) (f : Path × String)
    (h : updateStep d m f = .ok m') (k : String) :
    mapLookup m' k = mapLookup m k ∨
      (isModelFile f = true ∧ stemOf f = k ∧
        ((mapLookup m k = none ∧
            mapLookup m' k = some ⟨some (relOf d f), none⟩) ∨
          (∃ e : Entry, mapLookup m k = some e ∧
            mapLookup m' k = some ⟨e.filename, some (dupGet e ++ [relOf d f])⟩ ∧
            relOf d f ∉ dupGet e ∧ e.filename ≠ none ∧
            e.filename ≠ some (relOf d f)))) := by
  cases hmf : isModelFile f with
  | false =>
      rw [updateStep_not_model d m f hmf] at h
      rw [Except.ok.injEq] at h
      subst h
      exact Or.inl rfl
  | true =>
      rcases hl : mapLookup m (stemOf f) with _ | e
      · rw [updateStep_fresh d m f hmf hl] at h
        rw [Except.ok.injEq] at h
        subst h
        by_cases hk : stemOf f = k
        · subst hk
          refine Or.inr ⟨rfl, rfl, Or.inl ⟨hl, ?_⟩⟩
          rw [mapLookup_append_right m _ _ hl]
          simp [mapLookup]
        · refine Or.inl ?_
          rcases hmk : mapLookup m k with _ | e2
          · rw [mapLookup_append_right m _ k hmk]
            simp [mapLookup, hk]
          · exact mapLookup_append_left m _ k e2 hmk
      · rcases hfn : e.filename with _ | fn
        · rw [updateStep_keyerror d m f e hmf hl hfn] at h
          cases h
        · by_cases heq : fn = relOf d f
          · rw [updateStep_same d m f e fn hmf hl hfn heq] at h
            rw [Except.ok.injEq] at h
            subst h
            exact Or.inl rfl
          · by_cases hin : relOf d f ∈ dupGet e
            · rw [updateStep_indup d m f e fn hmf hl hfn heq hin] at h
              rw [Except.ok.injEq] at h
              subst h
              exact Or.inl rfl
            · rw [updateStep_append d m f e fn hmf hl hfn heq hin] at h
              rw [Except.ok.injEq] at h
              subst h
              by_cases hk : stemOf f = k
              · subst hk
                refine Or.inr ⟨rfl, rfl, Or.inr ⟨e, hl, ?_, hin, ?_, ?_⟩⟩
                · exact mapLookup_set_self m _ _ e hl
                · rw [hfn]; simp
                · rw [hfn]
                  simpa using heq
              · exact Or.inl
                  (mapLookup_set_other m _ k _ (fun hkk => hk hkk.symm))

/-- A step on a model file whose matched record has a `filename` (or no
record at all) never raises. -/
theorem updateStep_ok_exists (d : Path) (m : CMap) (f : Path × String)
    (hgood : ∀ e : Entry, mapLookup m (stemOf f) = some e →
      e.filename ≠ none) : ∃ m', updateStep d m f = .ok m' := by
  cases hmf : isModelFile f with
  | false => exact ⟨m, updateStep_not_model d m f hmf⟩
  | true =>
      rcases hl : mapLookup m (stemOf f) with _ | e
      · exact ⟨_, updateStep_fresh d m f hmf hl⟩
      · rcases hfn : e.filename with _ | fn
        · exact absurd hfn (hgood e hl)
        · by_cases heq : fn = relOf d f
          · exact ⟨m, updateStep_same d m f e fn hmf hl hfn heq⟩
          · by_cases hin : relOf d f ∈ dupGet e
            · exact ⟨m, updateStep_indup d m f e fn hmf hl hfn heq hin⟩
            · exact ⟨_, updateStep_append d m f e fn hmf hl hfn heq hin⟩

/-- After a successful step on a model file, the map's record for the
file's name mentions the file's relative path, either as the canonical
`filename` or among the `duplicates`. -/
theorem updateStep_covered_self (d : Path) (m m' : CMap) (f : Path × String)
    (h : updateStep d m f = .ok m') (hmf : isModelFile f = true) :
    ∃ e' : Entry, mapLookup m' (stemOf f) = some e' ∧ e'.filename ≠ none ∧
      (e'.filename = some (relOf d f) ∨ relOf d f ∈ dupGet e') := by
  rcases hl : mapLookup m (stemOf f) with _ | e
  · rw [updateStep_fresh d m f hmf hl] at h
    rw [Except.ok.injEq] at h
    subst h
    refine ⟨⟨some (relOf d f), none⟩, ?_, by simp, Or.inl rfl⟩
    rw [mapLookup_append_right m _ _ hl]
    simp [mapLookup]
  · rcases hfn : e.filename with _ | fn
    · rw [updateStep_keyerror d m f e hmf hl hfn] at h
      cases h
    · by_cases heq : fn = relOf d f
      · rw [updateStep_same d m f e fn hmf hl hfn heq] at h
        rw [Except.ok.injEq] at h
        subst h
        exact ⟨e, hl, by rw [hfn]; simp, Or.inl (by rw [hfn, heq])⟩
      · by_cases hin : relOf d f ∈ dupGet e
        · rw [updateStep_indup d m f e fn hmf hl hfn heq hin] at h
          rw [Except.ok.injEq] at h
          subst h
          exact ⟨e, hl, by rw [hfn]; simp, Or.inr hin⟩
        · rw [updateStep_append d m f e fn hmf hl hfn heq hin] at h
          rw [Except.ok.injEq] at h
          subst h
          refine ⟨⟨e.filename, some (dupGet e ++ [relOf d f])⟩,
            mapLookup_set_self m _ _ e hl, by rw [hfn]; simp, Or.inr ?_⟩
          simp [dupGet]

/-- A step on a file whose record already covers the file's relative path
(and has a canonical `filename`) leaves the map unchanged. -/
theorem updateStep_stable (d : Path) (m : CMap) (f : Path × String)
    (hcov : isModelFile f = true →
      ∃ e : Entry, mapLookup m (stemOf f) = some e ∧ e.filename ≠ none ∧
        (e.filename = some (relOf d f) ∨ relOf d f ∈ dupGet e)) :
    updateStep d m f = .ok m := by
  cases hmf : isModelFile f with
  | false => exact updateStep_not_model d m f hmf
  | true =>
      obtain ⟨e, hl, hfne, hcv⟩ := hcov hmf
      rcases hfn : e.filename with _ | fn
      · exact absurd hfn hfne
      · by_cases heq : fn = relOf d f
        · exact updateStep_same d m f e fn hmf hl hfn heq
        · rcases hcv with hcv | hcv
          · rw [hfn] at hcv
            exact absurd (Option.some.injEq _ _ ▸ hcv) heq
          · exact updateStep_indup d m f e fn hmf hl hfn heq hcv

end UpdateModelRepo

namespace UpdateModelRepo

/-! ### Run-level lemmas for the updater walk -/

theorem processWalk_cons_ok (d : Path) (m : CMap) (f : Path × String)
    (rest : List (Path × String)) (r : CMap)
    (h : processWalk d m (f :: rest) = .ok r) :
    ∃ m1, updateStep d m f = .ok m1 ∧ processWalk d m1 rest = .ok r := by
  rcases hs : updateStep d m f with u | m1
  · simp [processWalk, hs] at h
  · refine ⟨m1, rfl, ?_⟩
    simpa [processWalk, hs] using h

theorem processWalk_append_ok (d : Path) :
    ∀ (l1 : List (Path × String)) (m r1 : CMap) (l2 : List (Path × String)),
      processWalk d m l1 = .ok r1 →
      processWalk d m (l1 ++ l2) = processWalk d r1 l2
  | [], m, r1, l2, h => by
      rw [show processWalk d m [] = .ok m from rfl, Except.ok.injEq] at h
      rw [List.nil_append, h]
  | f :: rest, m, r1, l2, h => by
      obtain ⟨m1, hs, hrest⟩ := processWalk_cons_ok d m f rest r1 h
      rw [List.cons_append]
      simp only [processWalk, hs]
      exact processWalk_append_ok d rest m1 r1 l2 hrest

/-- Run-level filename immutability: a record present in the map keeps its
`filename` across the whole walk, and its `duplicates` list only ever gets
extended at the end. -/
theorem processWalk_lookup_mono (d : Path) :
    ∀ (l : List (Path × String)) (m r : CMap) (k : String) (e : Entry),
      processWalk d m l = .ok r → mapLookup m k = some e →
      ∃ e', mapLookup r k = some e' ∧ e'.filename = e.filename ∧
        ∃ t, dupGet e' = dupGet e ++ t
  | [], m, r, k, e, h, hk => by
      rw [show processWalk d m [] = .ok m from rfl, Except.ok.injEq] at h
      exact ⟨e, h ▸ hk, rfl, [], by simp⟩
  | f :: rest, m, r, k, e, h, hk => by
      obtain ⟨m1, hs, hrest⟩ := processWalk_cons_ok d m f rest r h
      rcases updateStep_spec d m m1 f hs k with heq | ⟨_, _, hcase⟩
      · exact processWalk_lookup_mono d rest m1 r k e hrest (heq ▸ hk)
      · rcases hcase with ⟨hnone, _⟩ | ⟨e0, he0, hm1, _, _, _⟩
        · rw [hk] at hnone; cases hnone
        · rw [hk, Option.some.injEq] at he0
          subst he0
          obtain ⟨e', h1, h2, t, h3⟩ :=
            processWalk_lookup_mono d rest m1 r k _ hrest hm1
          refine ⟨e', h1, by rw [h2], [relOf d f] ++ t, ?_⟩
          rw [h3]
          simp [dupGet]
  termination_by l => l.length

/-- Run-level provenance of stored paths: every path recorded in the final
map was either already recorded in the starting map under the same key, or
is the map-file-relative path of a model file of the walk with that name. -/
theorem processWalk_provenance (d : Path) :
    ∀ (l : List (Path × String)) (m r : CMap) (k : String) (e' : Entry),
      processWalk d m l = .ok r → mapLookup r k = some e' →
      ∀ p, p ∈ storedPaths e' →
      (∃ e, mapLookup m k = some e ∧ p ∈ storedPaths e) ∨
      (∃ f, f ∈ l ∧ isModelFile f = true ∧ stemOf f = k ∧ p = relOf d f)
  | [], m, r, k, e', h, hk, p, hp => by
      rw [show processWalk d m [] = .ok m from rfl, Except.ok.injEq] at h
      exact Or.inl ⟨e', h ▸ hk, hp⟩
  | f :: rest, m, r, k, e', h, hk, p, hp => by
      obtain ⟨m1, hs, hrest⟩ := processWalk_cons_ok d m f rest r h
      rcases processWalk_provenance d rest m1 r k e' hrest hk p hp with
        ⟨e1, h1, hp1⟩ | ⟨f', hf', hm', hst', hp'⟩
      · rcases updateStep_spec d m m1 f hs k with heq | ⟨hmf, hst, hcase⟩
        · exact Or.inl ⟨e1, heq ▸ h1, hp1⟩
        · rcases hcase with ⟨hnone, hm1⟩ | ⟨e, he, hm1, _, _, _⟩
          · rw [hm1, Option.some.injEq] at h1
            subst h1
            simp [storedPaths, dupGet] at hp1
            exact Or.inr ⟨f, List.mem_cons_self f rest, hmf, hst, hp1⟩
          · rw [hm1, Option.some.injEq] at h1
            subst h1
            simp only [storedPaths, dupGet] at hp1
            rcases List.mem_append.mp hp1 with hpa | hpb
            · exact Or.inl ⟨e, he, List.mem_append_left _ hpa⟩
            · rcases List.mem_append.mp hpb with hpc | hpd
              · exact Or.inl ⟨e, he,
                  List.mem_append_right _ (by simpa [dupGet] using hpc)⟩
              · rw [List.mem_singleton] at hpd
                exact Or.inr ⟨f, List.mem_cons_self f rest, hmf, hst, hpd⟩
      · exact Or.inr ⟨f', List.mem_cons_of_mem f hf', hm', hst', hp'⟩
  termination_by l => l.length

/-- A key that names no model file of the walk is looked up unchanged after
the walk. -/
theorem processWalk_untouched (d : Path) :
    ∀ (l : List (Path × String)) (m r : CMap) (k : String),
      (∀ f, f ∈ l → isModelFile f = true → stemOf f ≠ k) →
      processWalk d m l = .ok r → mapLookup r k = mapLookup m k
  | [], m, r, k, _, h => by
      rw [show processWalk d m [] = .ok m from rfl, Except.ok.injEq] at h
      rw [h]
  | f :: rest, m, r, k, hnone, h => by
      obtain ⟨m1, hs, hrest⟩ := processWalk_cons_ok d m f rest r h
      have h1 : mapLookup m1 k = mapLookup m k := by
        rcases updateStep_spec d m m1 f hs k with heq | ⟨hmf, hst, _⟩
        · exact heq
        · exact absurd hst (hnone f (List.mem_cons_self f rest) hmf)
      rw [processWalk_untouched d rest m1 r k
        (fun f' hf' => hnone f' (List.mem_cons_of_mem f hf')) hrest, h1]
  termination_by l => l.length

end UpdateModelRepo

namespace UpdateModelRepo

/-- If some walked model file matches a record that lacks a `filename`
field, the walk raises `KeyError`. -/
theorem processWalk_error_of_bad (d : Path) :
    ∀ (l : List (Path × String)) (m : CMap),
      (∃ f e, f ∈ l ∧ isModelFile f = true ∧
        mapLookup m (stemOf f) = some e ∧ e.filename = none) →
      processWalk d m l = .error ()
  | [], _, ⟨f, _, hf, _⟩ => absurd hf (List.not_mem_nil f)
  | g :: rest, m, ⟨f, e, hf, hmf, hl, hfn⟩ => by
      rcases hs : updateStep d m g with u | m1
      · cases u
        simp [processWalk, hs]
      · by_cases hgf : isModelFile g = true ∧ stemOf g = stemOf f
        · rw [updateStep_keyerror d m g e hgf.1 (hgf.2 ▸ hl) hfn] at hs
          cases hs
        · have hpers : mapLookup m1 (stemOf f) = some e := by
            rcases updateStep_spec d m m1 g hs (stemOf f) with heq | ⟨hq1, hq2, _⟩
            · rw [heq, hl]
            · exact absurd ⟨hq1, hq2⟩ hgf
          have hfr : f ∈ rest := by
            rcases List.mem_cons.mp hf with hfg | hfr
            · subst hfg
              exact absurd ⟨hmf, rfl⟩ hgf
            · exact hfr
          simp only [processWalk, hs]
          exact processWalk_error_of_bad d rest m1 ⟨f, e, hfr, hmf, hpers, hfn⟩
  termination_by l => l.length

/-- If every walked model file's pre-existing record has a `filename`
field, the walk succeeds. -/
theorem processWalk_ok_exists (d : Path) :
    ∀ (l : List (Path × String)) (m : CMap),
      (∀ f, f ∈ l → isModelFile f = true →
        ∀ e, mapLookup m (stemOf f) = some e → e.filename ≠ none) →
      ∃ r, processWalk d m l = .ok r
  | [], m, _ => ⟨m, rfl⟩
  | f :: rest, m, hgood => by
      have hstep : ∃ m1, updateStep d m f = .ok m1 := by
        cases hmf : isModelFile f with
        | false => exact ⟨m, updateStep_not_model d m f hmf⟩
        | true =>
            exact updateStep_ok_exists d m f
              (hgood f (List.mem_cons_self f rest) hmf)
      obtain ⟨m1, hs⟩ := hstep
      have hgood1 : ∀ f', f' ∈ rest → isModelFile f' = true →
          ∀ e1, mapLookup m1 (stemOf f') = some e1 → e1.filename ≠ none := by
        intro f' hf' hmf' e1 he1
        rcases updateStep_spec d m m1 f hs (stemOf f') with heq | ⟨_, _, hcase⟩
        · rw [heq] at he1
          exact hgood f' (List.mem_cons_of_mem f hf') hmf' e1 he1
        · rcases hcase with ⟨_, hm1⟩ | ⟨e, he, hm1, _, hfn, _⟩
          · rw [hm1, Option.some.injEq] at he1
            subst he1
            simp
          · rw [hm1, Option.some.injEq] at he1
            subst he1
            simpa using hfn
      obtain ⟨r, hr⟩ := processWalk_ok_exists d rest m1 hgood1
      refine ⟨r, ?_⟩
      simp only [processWalk, hs]
      exact hr
  termination_by l => l.length

/-- After a successful walk, the final map's record for each walked model
file's name covers that file's relative path. -/
theorem processWalk_covers (d : Path) :
    ∀ (l : List (Path × String)) (m r : CMap),
      processWalk d m l = .ok r →
      ∀ f, f ∈ l → isModelFile f = true →
      ∃ e, mapLookup r (stemOf f) = some e ∧ e.filename ≠ none ∧
        (e.filename = some (relOf d f) ∨ relOf d f ∈ dupGet e)
  | [], _, _, _, f, hf, _ => absurd hf (List.not_mem_nil f)
  | g :: rest, m, r, h, f, hf, hmf => by
      obtain ⟨m1, hs, hrest⟩ := processWalk_cons_ok d m g rest r h
      rcases List.mem_cons.mp hf with hfg | hfr
      · subst hfg
        obtain ⟨e1, h1, hfn1, hcv1⟩ := updateStep_covered_self d m m1 f hs hmf
        obtain ⟨e', h1', h2', t, h3'⟩ :=
          processWalk_lookup_mono d rest m1 r (stemOf f) e1 hrest h1
        refine ⟨e', h1', by rw [h2']; exact hfn1, ?_⟩
        rcases hcv1 with hcv1 | hcv1
        · exact Or.inl (by rw [h2', hcv1])
        · exact Or.inr (by rw [h3']; exact List.mem_append_left t hcv1)
      · exact processWalk_covers d rest m1 r hrest f hfr hmf
  termination_by l => l.length

/-- A walk over files all of whose relative paths are already covered by
the map leaves the map unchanged (and raises nothing). -/
theorem processWalk_stable (d : Path) :
    ∀ (l : List (Path × String)) (m : CMap),
      (∀ f, f ∈ l → isModelFile f = true →
        ∃ e, mapLookup m (stemOf f) = some e ∧ e.filename ≠ none ∧
          (e.filename = some (relOf d f) ∨ relOf d f ∈ dupGet e)) →
      processWalk d m l = .ok m
  | [], _, _ => rfl
  | f :: rest, m, hcov => by
      have hs : updateStep d m f = .ok m :=
        updateStep_stable d m f (fun hmf => hcov f (List.mem_cons_self f rest) hmf)
      simp only [processWalk, hs]
      exact processWalk_stable d rest m
        (fun f' hf' => hcov f' (List.mem_cons_of_mem f hf'))
  termination_by l => l.length

/-- The walk preserves duplicate-free `duplicates` lists. -/
theorem processWalk_dup_nodup (d : Path) :
    ∀ (l : List (Path × String)) (m r : CMap),
      (∀ k e, mapLookup m k = some e → (dupGet e).Nodup) →
      processWalk d m l = .ok r →
      ∀ k e', mapLookup r k = some e' → (dupGet e').Nodup
  | [], m, r, hinv, h, k, e', hk => by
      rw [show processWalk d m [] = .ok m from rfl, Except.ok.injEq] at h
      exact hinv k e' (h ▸ hk)
  | f :: rest, m, r, hinv, h, k, e', hk => by
      obtain ⟨m1, hs, hrest⟩ := processWalk_cons_ok d m f rest r h
      have hinv1 : ∀ k1 e1, mapLookup m1 k1 = some e1 → (dupGet e1).Nodup := by
        intro k1 e1 he1
        rcases updateStep_spec d m m1 f hs k1 with heq | ⟨_, _, hcase⟩
        · rw [heq] at he1
          exact hinv k1 e1 he1
        · rcases hcase with ⟨_, hm1⟩ | ⟨e, he, hm1, hnin, _, _⟩
          · rw [hm1, Option.some.injEq] at he1
            subst he1
            simp [dupGet]
          · rw [hm1, Option.some.injEq] at he1
            subst he1
            have hnd : (dupGet e).Nodup := hinv k1 e he
            show (dupGet e ++ [relOf d f]).Nodup
            rw [List.nodup_append]
            refine ⟨hnd, List.nodup_singleton _, ?_⟩
            intro a ha hb
            rw [List.mem_singleton] at hb
            subst hb
            exact hnin ha
      exact processWalk_dup_nodup d rest m1 r hinv1 hrest k e' hk
  termination_by l => l.length

end UpdateModelRepo

namespace UpdateModelRepo

/-- How one step changes the key set: unchanged (and for a model file the
name was already a key), or one fresh key appended at the end. -/
theorem updateStep_keys (d : Path) (m m1 : CMap) (f : Path × String)
    (h : updateStep d m f = .ok m1) :
    (m1.map Prod.fst = m.map Prod.fst ∧
      (isModelFile f = true → stemOf f ∈ m.map Prod.fst)) ∨
    (m1.map Prod.fst = m.map Prod.fst ++ [stemOf f] ∧
      mapLookup m (stemOf f) = none ∧ isModelFile f = true) := by
  cases hmf : isModelFile f with
  | false =>
      rw [updateStep_not_model d m f hmf, Except.ok.injEq] at h
      subst h
      exact Or.inl ⟨rfl, fun hc => absurd hc Bool.false_ne_true⟩
  | true =>
      have hksome : mapLookup m (stemOf f) ≠ none →
          stemOf f ∈ m.map Prod.fst := by
        intro hns
        rcases hsome : mapLookup m (stemOf f) with _ | e0
        · exact absurd hsome hns
        · exact (mapLookup_isSome_iff m _).mp (by rw [hsome]; rfl)
      rcases hl : mapLookup m (stemOf f) with _ | e
      · rw [updateStep_fresh d m f hmf hl, Except.ok.injEq] at h
        subst h
        exact Or.inr ⟨by simp, rfl, rfl⟩
      · rcases hfn : e.filename with _ | fn
        · rw [updateStep_keyerror d m f e hmf hl hfn] at h
          cases h
        · by_cases heq : fn = relOf d f
          · rw [updateStep_same d m f e fn hmf hl hfn heq,
              Except.ok.injEq] at h
            subst h
            exact Or.inl ⟨rfl, fun _ => hksome (by rw [hl]; simp)⟩
          · by_cases hin : relOf d f ∈ dupGet e
            · rw [updateStep_indup d m f e fn hmf hl hfn heq hin,
                Except.ok.injEq] at h
              subst h
              exact Or.inl ⟨rfl, fun _ => hksome (by rw [hl]; simp)⟩
            · rw [updateStep_append d m f e fn hmf hl hfn heq hin,
                Except.ok.injEq] at h
              subst h
              exact Or.inl ⟨mapSet_keys m _ _,
                fun _ => hksome (by rw [hl]; simp)⟩

theorem updateStep_keys_mem (d : Path) (m m1 : CMap) (f : Path × String)
    (h : updateStep d m f = .ok m1) (k : String) :
    k ∈ m1.map Prod.fst ↔
      (k ∈ m.map Prod.fst ∨ (isModelFile f = true ∧ k = stemOf f)) := by
  rcases updateStep_keys d m m1 f h with ⟨hkeys, hsome⟩ | ⟨hkeys, _, hmf⟩
  · rw [hkeys]
    constructor
    · exact Or.inl
    · rintro (hk | ⟨hmf, hk⟩)
      · exact hk
      · subst hk
        exact hsome hmf
  · rw [hkeys, List.mem_append, List.mem_singleton]
    constructor
    · rintro (hk | hk)
      · exact Or.inl hk
      · exact Or.inr ⟨hmf, hk⟩
    · rintro (hk | ⟨_, hk⟩)
      · exact Or.inl hk
      · exact Or.inr hk

theorem modelNames_cons (f : Path × String) (rest : List (Path × String)) :
    modelNames (f :: rest) =
      (if isModelFile f = true then [stemOf f] else []) ++ modelNames rest := by
  simp only [modelNames, List.filterMap_cons]
  cases hmf : isModelFile f <;> simp [hmf]

theorem processWalk_keys_mem (d : Path) :
    ∀ (l : List (Path × String)) (m r : CMap),
      processWalk d m l = .ok r →
      ∀ k, k ∈ r.map Prod.fst ↔
        (k ∈ m.map Prod.fst ∨ k ∈ modelNames l)
  | [], m, r, h, k => by
      rw [show processWalk d m [] = .ok m from rfl, Except.ok.injEq] at h
      subst h
      simp [modelNames]
  | f :: rest, m, r, h, k => by
      obtain ⟨m1, hs, hrest⟩ := processWalk_cons_ok d m f rest r h
      rw [processWalk_keys_mem d rest m1 r hrest k,
        updateStep_keys_mem d m m1 f hs k, modelNames_cons]
      cases hmf : isModelFile f
      · simp [hmf]
      · simp [hmf]
        tauto
  termination_by l => l.length

theorem processWalk_keys_nodup (d : Path) :
    ∀ (l : List (Path × String)) (m r : CMap),
      (m.map Prod.fst).Nodup → processWalk d m l = .ok r →
      (r.map Prod.fst).Nodup
  | [], m, r, hnd, h => by
      rw [show processWalk d m [] = .ok m from rfl, Except.ok.injEq] at h
      subst h
      exact hnd
  | f :: rest, m, r, hnd, h => by
      obtain ⟨m1, hs, hrest⟩ := processWalk_cons_ok d m f rest r h
      have hnd1 : (m1.map Prod.fst).Nodup := by
        rcases updateStep_keys d m m1 f hs with ⟨hkeys, _⟩ | ⟨hkeys, hnone, _⟩
        · rw [hkeys]
          exact hnd
        · rw [hkeys, List.nodup_append]
          refine ⟨hnd, List.nodup_singleton _, ?_⟩
          intro a ha hb
          rw [List.mem_singleton] at hb
          subst hb
          exact (mapLookup_eq_none_iff m _).mp hnone ha
      exact processWalk_keys_nodup d rest m1 r hnd1 hrest
  termination_by l => l.length

end UpdateModelRepo

namespace UpdateModelRepo

theorem mem_modelNames_of (l : List (Path × String)) (f : Path × String)
    (hf : f ∈ l) (hmf : isModelFile f = true) : stemOf f ∈ modelNames l :=
  List.mem_filterMap.mpr ⟨f, hf, by simp [hmf]⟩

/-! ### The claims about the map updater -/

/-- C3: for every key present in the component map — loaded from disk
(`l1 = []`) or inserted at any point of the walk (after the prefix `l1`) —
finishing the updater's walk never changes that key's `filename`; later
files with the same model name can only extend the `duplicates` list. -/
theorem updater_filename_immutable (disk : Option CMap) (mapf : Path)
    (fs : FileSys) (dst : Path) (r r1 : CMap)
    (l1 l2 : List (Path × String)) (k : String) (e : Entry)
    (hwalk : walkNames fs dst = l1 ++ l2)
    (h : updateMapFile disk mapf fs dst = .ok r)
    (h1 : processWalk mapf.dropLast (disk.getD []) l1 = .ok r1)
    (hk : mapLookup r1 k = some e) :
    ∃ e', mapLookup r k = some e' ∧ e'.filename = e.filename ∧
      ∃ t, dupGet e' = dupGet e ++ t := by
  have h' : processWalk mapf.dropLast (disk.getD []) (l1 ++ l2) = .ok r := by
    rw [← hwalk]
    exact h
  rw [processWalk_append_ok mapf.dropLast l1 (disk.getD []) r1 l2 h1] at h'
  exact processWalk_lookup_mono mapf.dropLast l2 r1 r k e h' hk

/-- C4: the updater appends a path to a `duplicates` list only when absent
from it, so duplicate-free `duplicates` lists stay duplicate-free; and a
second run over the unchanged destination tree returns the same map, so
every `duplicates` list (hence its length) is unchanged. -/
theorem updater_duplicates_nodup_and_idempotent (disk : CMap) (mapf : Path)
    (fs : FileSys) (dst : Path) (r : CMap)
    (hnodup : ∀ k e, mapLookup disk k = some e → (dupGet e).Nodup)
    (h : updateMapFile (some disk) mapf fs dst = .ok r) :
    (∀ k e', mapLookup r k = some e' → (dupGet e').Nodup) ∧
      updateMapFile (some r) mapf fs dst = .ok r := by
  have h' : processWalk mapf.dropLast disk (walkNames fs dst) = .ok r := h
  constructor
  · exact processWalk_dup_nodup mapf.dropLast (walkNames fs dst) disk r
      hnodup h'
  · show processWalk mapf.dropLast r (walkNames fs dst) = .ok r
    exact processWalk_stable mapf.dropLast (walkNames fs dst) r
      (fun f hf hmf =>
        processWalk_covers mapf.dropLast (walkNames fs dst) disk r h' f hf hmf)

/-- C5: starting from an absent map file, the updater succeeds, its
resulting keys are exactly the model names of the model files of the
destination walk, and the number of keys — the count the summary notice
reports via `len(component_map)` — is the number of distinct model
names. -/
theorem updater_indexes_all_model_names (mapf dst : Path) (fs : FileSys) :
    ∃ r, updateMapFile none mapf fs dst = .ok r ∧
      (∀ k, k ∈ r.map Prod.fst ↔ k ∈ modelNames (walkNames fs dst)) ∧
      r.length = (modelNames (walkNames fs dst)).toFinset.card := by
  obtain ⟨r, hr⟩ := processWalk_ok_exists mapf.dropLast (walkNames fs dst) []
    (fun f hf hmf e he => by simp [mapLookup] at he)
  have hmem : ∀ k, k ∈ r.map Prod.fst ↔ k ∈ modelNames (walkNames fs dst) := by
    intro k
    rw [processWalk_keys_mem mapf.dropLast (walkNames fs dst) [] r hr k]
    simp
  have hnd : (r.map Prod.fst).Nodup :=
    processWalk_keys_nodup mapf.dropLast (walkNames fs dst) [] r (by simp) hr
  refine ⟨r, hr, hmem, ?_⟩
  have h2 : (r.map Prod.fst).toFinset =
      (modelNames (walkNames fs dst)).toFinset := by
    ext a
    simp only [List.mem_toFinset]
    exact hmem a
  rw [← List.length_map r Prod.fst, ← List.toFinset_card_of_nodup hnd, h2]

/-- C6: the updater never removes a key — a record whose model name matches
no model file of the destination walk (for instance because its file was
deleted) survives in the written map entirely unchanged. -/
theorem updater_preserves_orphan_entries (disk : CMap) (mapf : Path)
    (fs : FileSys) (dst : Path) (r : CMap) (k : String) (e : Entry)
    (hk : mapLookup disk k = some e)
    (habsent : k ∉ modelNames (walkNames fs dst))
    (h : updateMapFile (some disk) mapf fs dst = .ok r) :
    mapLookup r k = some e := by
  have h' : processWalk mapf.dropLast disk (walkNames fs dst) = .ok r := h
  rw [processWalk_untouched mapf.dropLast (walkNames fs dst) disk r k
    (fun f hf hmf hst => habsent (hst ▸ mem_modelNames_of _ f hf hmf)) h', hk]

/-- C8: every path the updater stores that was not already in the loaded
map is the walked file's absolute path made relative to the directory
containing the map file (`os.path.dirname` of the map file path, modelled
by `List.dropLast`) — not relative to the destination root. -/
theorem updater_paths_relative_to_map_dir (disk : Option CMap) (mapf : Path)
    (fs : FileSys) (dst : Path) (r : CMap) (k : String) (e' : Entry)
    (p : String) (h : updateMapFile disk mapf fs dst = .ok r)
    (hk : mapLookup r k = some e') (hp : p ∈ storedPaths e') :
    (∃ e, mapLookup (disk.getD []) k = some e ∧ p ∈ storedPaths e) ∨
    (∃ f, f ∈ walkNames fs dst ∧ isModelFile f = true ∧ stemOf f = k ∧
      p = pathString (relpathList (f.1 ++ [f.2]) mapf.dropLast)) := by
  have h' : processWalk mapf.dropLast (disk.getD []) (walkNames fs dst)
      = .ok r := h
  exact processWalk_provenance mapf.dropLast (walkNames fs dst)
    (disk.getD []) r k e' h' hk p hp

/-- C10: if any model file of the destination walk matches a loaded record
that lacks a `"filename"` field, the updater raises `KeyError` (so nothing
is written — the write happens after the loop); and this is the only way
the error branch triggers: when every matched pre-existing record carries a
`filename`, the run succeeds. -/
theorem updater_missing_filename_keyerror (disk : CMap) (mapf : Path)
    (fs : FileSys) (dst : Path) :
    ((∃ f e, f ∈ walkNames fs dst ∧ isModelFile f = true ∧
        mapLookup disk (stemOf f) = some e ∧ e.filename = none) →
      updateMapFile (some disk) mapf fs dst = .error ()) ∧
    ((∀ f, f ∈ walkNames fs dst → isModelFile f = true →
        ∀ e, mapLookup disk (stemOf f) = some e → e.filename ≠ none) →
      ∃ r, updateMapFile (some disk) mapf fs dst = .ok r) := by
  constructor
  · intro hbad
    show processWalk mapf.dropLast disk (walkNames fs dst) = .error ()
    exact processWalk_error_of_bad mapf.dropLast (walkNames fs dst) disk hbad
  · intro hgood
    obtain ⟨r, hr⟩ :=
      processWalk_ok_exists mapf.dropLast (walkNames fs dst) disk hgood
    exact ⟨r, hr⟩

end UpdateModelRepo

namespace UpdateModelRepo

/-! ### Concrete witnesses for the updater claims -/

theorem updater_filename_immutable_witness :
    ∃ e', mapLookup [("W", ⟨some "dest/a/W.stl", some ["dest/b/W.stl"]⟩)] "W"
        = some e' ∧
      e'.filename = (⟨some "dest/a/W.stl", none⟩ : Entry).filename ∧
      ∃ t, dupGet e' = dupGet ⟨some "dest/a/W.stl", none⟩ ++ t :=
  updater_filename_immutable none ["h", "component.js"]
    ⟨[["h", "dest"]],
      [(["h", "dest", "a", "W.stl"], ⟨[1], 5⟩),
       (["h", "dest", "b", "W.stl"], ⟨[2], 6⟩)]⟩
    ["h", "dest"]
    [("W", ⟨some "dest/a/W.stl", some ["dest/b/W.stl"]⟩)]
    [("W", ⟨some "dest/a/W.stl", none⟩)]
    [(["h", "dest", "a"], "W.stl")] [(["h", "dest", "b"], "W.stl")]
    "W" ⟨some "dest/a/W.stl", none⟩ rfl rfl rfl rfl

theorem updater_duplicates_nodup_and_idempotent_witness :
    (dupGet (⟨some "dest/a/W.stl", some ["dest/b/W.stl"]⟩ : Entry)).Nodup ∧
      updateMapFile (some [("W", ⟨some "dest/a/W.stl", some ["dest/b/W.stl"]⟩)])
        ["h", "component.js"]
        ⟨[["h", "dest"]],
          [(["h", "dest", "a", "W.stl"], ⟨[1], 5⟩),
           (["h", "dest", "b", "W.stl"], ⟨[2], 6⟩)]⟩
        ["h", "dest"] =
        .ok [("W", ⟨some "dest/a/W.stl", some ["dest/b/W.stl"]⟩)] := by
  have h := updater_duplicates_nodup_and_idempotent [] ["h", "component.js"]
    ⟨[["h", "dest"]],
      [(["h", "dest", "a", "W.stl"], ⟨[1], 5⟩),
       (["h", "dest", "b", "W.stl"], ⟨[2], 6⟩)]⟩
    ["h", "dest"]
    [("W", ⟨some "dest/a/W.stl", some ["dest/b/W.stl"]⟩)]
    (fun _ _ hke => nomatch hke) rfl
  exact ⟨h.1 "W" ⟨some "dest/a/W.stl", some ["dest/b/W.stl"]⟩ rfl, h.2⟩

theorem updater_preserves_orphan_entries_witness :
    mapLookup [("Old", ⟨some "gone/Old.stl", none⟩),
      ("A", ⟨some "dest/A.stl", none⟩)] "Old"
      = some ⟨some "gone/Old.stl", none⟩ :=
  updater_preserves_orphan_entries [("Old", ⟨some "gone/Old.stl", none⟩)]
    ["h", "component.js"]
    ⟨[["h", "dest"]], [(["h", "dest", "A.stl"], ⟨[0], 0⟩)]⟩ ["h", "dest"]
    [("Old", ⟨some "gone/Old.stl", none⟩), ("A", ⟨some "dest/A.stl", none⟩)]
    "Old" ⟨some "gone/Old.stl", none⟩ rfl (by decide) rfl

theorem updater_paths_relative_to_map_dir_witness :
    (∃ e, mapLookup ((none : Option CMap).getD []) "W" = some e ∧
        "dest/a/W.stl" ∈ storedPaths e) ∨
    (∃ f, f ∈ walkNames
        ⟨[["h", "dest"]], [(["h", "dest", "a", "W.stl"], ⟨[1], 5⟩)]⟩
        ["h", "dest"] ∧
      isModelFile f = true ∧ stemOf f = "W" ∧
      "dest/a/W.stl" =
        pathString (relpathList (f.1 ++ [f.2])
          (["h", "component.js"] : Path).dropLast)) :=
  updater_paths_relative_to_map_dir none ["h", "component.js"]
    ⟨[["h", "dest"]], [(["h", "dest", "a", "W.stl"], ⟨[1], 5⟩)]⟩
    ["h", "dest"] [("W", ⟨some "dest/a/W.stl", none⟩)]
    "W" ⟨some "dest/a/W.stl", none⟩ "dest/a/W.stl" rfl rfl (by decide)

theorem updater_missing_filename_keyerror_witness :
    updateMapFile (some [("A", ⟨none, none⟩)]) ["h", "component.js"]
        ⟨[["h", "dest"]], [(["h", "dest", "A.stl"], ⟨[0], 0⟩)]⟩
        ["h", "dest"] = .error () ∧
    ∃ r, updateMapFile (some [("A", ⟨some "x/A.stl", none⟩)])
        ["h", "component.js"]
        ⟨[["h", "dest"]], [(["h", "dest", "A.stl"], ⟨[0], 0⟩)]⟩
        ["h", "dest"] = .ok r := by
  constructor
  · exact (updater_missing_filename_keyerror [("A", ⟨none, none⟩)]
      ["h", "component.js"]
      ⟨[["h", "dest"]], [(["h", "dest", "A.stl"], ⟨[0], 0⟩)]⟩
      ["h", "dest"]).1
      ⟨(["h", "dest"], "A.stl"), ⟨none, none⟩, by decide, by decide, rfl, rfl⟩
  · refine (updater_missing_filename_keyerror [("A", ⟨some "x/A.stl", none⟩)]
      ["h", "component.js"]
      ⟨[["h", "dest"]], [(["h", "dest", "A.stl"], ⟨[0], 0⟩)]⟩
      ["h", "dest"]).2 ?_
    intro f hf hmf e he
    rw [show walkNames
        (⟨[["h", "dest"]], [(["h", "dest", "A.stl"], ⟨[0], 0⟩)]⟩ : FileSys)
        ["h", "dest"] = [((["h", "dest"] : Path), "A.stl")] from rfl,
      List.mem_singleton] at hf
    subst hf
    rw [show mapLookup [("A", (⟨some "x/A.stl", none⟩ : Entry))]
        (stemOf ((["h", "dest"] : Path), "A.stl"))
        = some ⟨some "x/A.stl", none⟩ from rfl, Option.some.injEq] at he
    subst he
    simp

end UpdateModelRepo


namespace UpdateModelRepo

/-! ### Lemmas about the walk and the copier -/

theorem walkEntry_spec (root : Path) (q : Path × FileData)
    (t : Path × String × FileData) (h : walkEntry root q = some t) :
    t.1 ++ [t.2.1] = q.1 ∧ t.1.take root.length = root ∧ t.2.2 = q.2 := by
  rcases hq : q.1.reverse with _ | ⟨name, rdir⟩
  · simp [walkEntry, hq] at h
  · simp only [walkEntry, hq] at h
    by_cases hif : rdir.reverse.take root.length = root
    · rw [if_pos hif, Option.some.injEq] at h
      subst h
      refine ⟨?_, hif, rfl⟩
      have hq1 : q.1 = rdir.reverse ++ [name] := by
        rw [← List.reverse_reverse q.1, hq, List.reverse_cons]
      rw [hq1]
    · rw [if_neg hif] at h
      cases h

theorem osWalk_mem (fs : FileSys) (root : Path)
    (t : Path × String × FileData) (ht : t ∈ osWalk fs root) :
    t.1.take root.length = root ∧ (t.1 ++ [t.2.1], t.2.2) ∈ fs.files := by
  by_cases hde : dirExists fs root = true
  · rw [osWalk, if_pos hde] at ht
    obtain ⟨q, hq, hw⟩ := List.mem_filterMap.mp ht
    obtain ⟨h1, h2, h3⟩ := walkEntry_spec root q t hw
    refine ⟨h2, ?_⟩
    rw [h1, h3]
    exact hq
  · rw [osWalk, if_neg hde] at ht
    cases ht

theorem filterMap_walk_nodup (root : Path) :
    ∀ (files : List (Path × FileData)), (files.map Prod.fst).Nodup →
      (((files.filterMap (walkEntry root)).map
        (fun t => t.1 ++ [t.2.1])).Nodup)
  | [], _ => by simp
  | q :: rest, hnd => by
      rw [List.map_cons, List.nodup_cons] at hnd
      rw [List.filterMap_cons]
      rcases hw : walkEntry root q with _ | t
      · exact filterMap_walk_nodup root rest hnd.2
      · rw [List.map_cons, List.nodup_cons]
        refine ⟨?_, filterMap_walk_nodup root rest hnd.2⟩
        intro hmem
        obtain ⟨t', ht', heq⟩ := List.mem_map.mp hmem
        obtain ⟨q', hq', hw'⟩ := List.mem_filterMap.mp ht'
        have e1 := (walkEntry_spec root q t hw).1
        have e2 := (walkEntry_spec root q' t' hw').1
        apply hnd.1
        have hqq : q.1 = q'.1 := by rw [← e1, ← heq, e2]
        rw [hqq]
        exact List.mem_map_of_mem Prod.fst hq'

theorem osWalk_paths_nodup (fs : FileSys) (root : Path)
    (hnd : (fs.files.map Prod.fst).Nodup) :
    ((osWalk fs root).map (fun t => t.1 ++ [t.2.1])).Nodup := by
  by_cases hde : dirExists fs root = true
  · rw [osWalk, if_pos hde]
    exact filterMap_walk_nodup root fs.files hnd
  · rw [osWalk, if_neg hde]
    simp

theorem commonPrefixLen_of_take :
    ∀ (s d : List String), d.take s.length = s → commonPrefixLen s d = s.length
  | [], _, _ => rfl
  | a :: s', d, h => by
      cases d with
      | nil => simp at h
      | cons b d' =>
          rw [List.length_cons, List.take_succ_cons] at h
          injection h with h1 h2
          rw [commonPrefixLen, if_pos h1.symm,
            commonPrefixLen_of_take s' d' h2]
          simp

theorem relpathList_under (dir src : Path) (h : dir.take src.length = src) :
    relpathList dir src = dir.drop src.length := by
  rw [relpathList, commonPrefixLen_of_take src dir h]
  simp

theorem dstPathOf_inj (src dst : Path) (t t' : Path × String × FileData)
    (h1 : t.1.take src.length = src) (h2 : t'.1.take src.length = src)
    (he : dstPathOf src dst t = dstPathOf src dst t') :
    t.1 ++ [t.2.1] = t'.1 ++ [t'.2.1] := by
  rw [dstPathOf, dstPathOf, relpathList_under t.1 src h1,
    relpathList_under t'.1 src h2, List.append_assoc, List.append_assoc] at he
  have he2 : t.1.drop src.length ++ [t.2.1] =
      t'.1.drop src.length ++ [t'.2.1] := by
    exact List.append_cancel_left he
  have he3 := congrArg List.reverse he2
  simp only [List.reverse_append, List.reverse_singleton,
    List.singleton_append] at he3
  injection he3 with hname hdrop
  have hd : t.1.drop src.length = t'.1.drop src.length :=
    List.reverse_injective hdrop
  have ha : t.1 = src ++ t.1.drop src.length := by
    conv_lhs => rw [← List.take_append_drop src.length t.1]
    rw [h1]
  have hb : t'.1 = src ++ t'.1.drop src.length := by
    conv_lhs => rw [← List.take_append_drop src.length t'.1]
    rw [h2]
  rw [ha, hb, hd, hname]

theorem copyOne_not_model (src dst : Path) (fs : FileSys)
    (t : Path × String × FileData) (h : isModelName t.2.1 = false) :
    copyOne src dst fs t = (fs, none) := by
  have h' : ¬ (splitext t.2.1).2 ∈ modelExts := by
    simpa [isModelName] using h
  simp [copyOne, h']

theorem copyOne_model (src dst : Path) (fs : FileSys)
    (t : Path × String × FileData) (h : isModelName t.2.1 = true) :
    copyOne src dst fs t =
      if needsCopy fs (dstPathOf src dst t) t.2.2 then
        (writeFile fs (dst ++ relpathList t.1 src) (dstPathOf src dst t)
          t.2.2, some (dstPathOf src dst t))
      else (fs, none) := by
  have h' : (splitext t.2.1).2 ∈ modelExts := by
    simpa [isModelName] using h
  simp [copyOne, h', dstPathOf]

theorem copyOne_lookup_other (src dst : Path) (fs : FileSys)
    (t : Path × String × FileData) (p : Path)
    (hp : p ≠ dstPathOf src dst t) :
    fileLookup (copyOne src dst fs t).1 p = fileLookup fs p := by
  by_cases hm : isModelName t.2.1 = true
  · rw [copyOne_model src dst fs t hm]
    by_cases hc : needsCopy fs (dstPathOf src dst t) t.2.2 = true
    · rw [if_pos hc]
      show fileLookup (writeFile fs _ (dstPathOf src dst t) t.2.2) p = _
      rw [fileLookup_writeFile, if_neg hp]
    · rw [if_neg hc]
  · rw [copyOne_not_model src dst fs t (by simpa using hm)]

theorem copyRun_copied_sub (src dst : Path) :
    ∀ (l : List (Path × String × FileData)) (fs : FileSys) (p : Path),
      p ∈ (copyRun src dst fs l).2 →
      ∃ t, t ∈ l ∧ isModelName t.2.1 = true ∧ p = dstPathOf src dst t
  | [], fs, p, h => by simp [copyRun] at h
  | t :: rest, fs, p, h => by
      simp only [copyRun] at h
      rcases List.mem_append.mp h with h1 | h2
      · by_cases hm : isModelName t.2.1 = true
        · rw [copyOne_model src dst fs t hm] at h1
          by_cases hc : needsCopy fs (dstPathOf src dst t) t.2.2 = true
          · rw [if_pos hc] at h1
            simp only [Option.toList_some, List.mem_singleton] at h1
            exact ⟨t, List.mem_cons_self t rest, hm, h1⟩
          · rw [if_neg hc] at h1
            simp at h1
        · rw [copyOne_not_model src dst fs t (by simpa using hm)] at h1
          simp at h1
      · obtain ⟨t', ht', hm', hp'⟩ := copyRun_copied_sub src dst rest _ p h2
        exact ⟨t', List.mem_cons_of_mem t ht', hm', hp'⟩
  termination_by l => l.length

end UpdateModelRepo

namespace UpdateModelRepo

/-- The destination paths that receive a copy during a run, characterised
against the initial filesystem: a model file of the walk is copied exactly
when the copy condition held for it at the start of the run (no two walk
entries share a destination path, so earlier steps cannot affect it). -/
theorem copyRun_mem_iff (src dst : Path) :
    ∀ (l : List (Path × String × FileData)) (fs : FileSys),
      ((l.map (fun t => t.1 ++ [t.2.1])).Nodup) →
      (∀ t', t' ∈ l → t'.1.take src.length = src) →
      ∀ t, t ∈ l → isModelName t.2.1 = true →
      (dstPathOf src dst t ∈ (copyRun src dst fs l).2 ↔
        needsCopy fs (dstPathOf src dst t) t.2.2 = true)
  | [], _, _, _, t, ht, _ => absurd ht (List.not_mem_nil t)
  | g :: rest, fs, hnd, hroot, t, ht, hm => by
      rw [List.map_cons, List.nodup_cons] at hnd
      simp only [copyRun]
      rw [List.mem_append]
      rcases List.mem_cons.mp ht with htg | htr
      · subst htg
        constructor
        · rintro (h1 | h2)
          · rw [copyOne_model src dst fs t hm] at h1
            by_cases hc : needsCopy fs (dstPathOf src dst t) t.2.2 = true
            · exact hc
            · rw [if_neg hc] at h1
              simp at h1
          · obtain ⟨t', ht', hm', hp'⟩ := copyRun_copied_sub src dst rest _ _ h2
            have hpath : t.1 ++ [t.2.1] = t'.1 ++ [t'.2.1] :=
              dstPathOf_inj src dst t t'
                (hroot t (List.mem_cons_self t rest))
                (hroot t' (List.mem_cons_of_mem t ht')) hp'
            exact absurd
              (hpath ▸ List.mem_map_of_mem (fun u => u.1 ++ [u.2.1]) ht')
              hnd.1
        · intro hc
          left
          rw [copyOne_model src dst fs t hm, if_pos hc]
          simp
      · have hneq : dstPathOf src dst t ≠ dstPathOf src dst g := by
          intro he
          have hpath := dstPathOf_inj src dst t g (hroot t ht)
            (hroot g (List.mem_cons_self g rest)) he
          exact hnd.1
            (hpath ▸ List.mem_map_of_mem (fun u => u.1 ++ [u.2.1]) htr)
        have hlf : fileLookup (copyOne src dst fs g).1 (dstPathOf src dst t)
            = fileLookup fs (dstPathOf src dst t) :=
          copyOne_lookup_other src dst fs g _ hneq
        have hneeds : needsCopy (copyOne src dst fs g).1
            (dstPathOf src dst t) t.2.2
            = needsCopy fs (dstPathOf src dst t) t.2.2 := by
          unfold needsCopy
          rw [hlf]
        have hIH := copyRun_mem_iff src dst rest (copyOne src dst fs g).1
          hnd.2 (fun t' ht' => hroot t' (List.mem_cons_of_mem g ht'))
          t htr hm
        constructor
        · rintro (h1 | h2)
          · exfalso
            by_cases hmg : isModelName g.2.1 = true
            · rw [copyOne_model src dst fs g hmg] at h1
              by_cases hcg : needsCopy fs (dstPathOf src dst g) g.2.2 = true
              · rw [if_pos hcg] at h1
                simp only [Option.toList_some, List.mem_singleton] at h1
                exact hneq h1
              · rw [if_neg hcg] at h1
                simp at h1
            · rw [copyOne_not_model src dst fs g (by simpa using hmg)] at h1
              simp at h1
          · rw [← hneeds]
            exact hIH.mp h2
        · intro hc
          right
          exact hIH.mpr (by rw [hneeds]; exact hc)
  termination_by l => l.length

end UpdateModelRepo

namespace UpdateModelRepo

theorem needsCopy_iff (fs : FileSys) (p : Path) (data : FileData) :
    needsCopy fs p data = true ↔
      (fileLookup fs p = none ∨
        ∃ d0, fileLookup fs p = some d0 ∧ filecmpCmp data d0 = false) := by
  unfold needsCopy
  rcases h : fileLookup fs p with _ | d0
  · simp
  · simp [Bool.not_eq_true']

/-! ### The claims about the copier and the shared extension test -/

/-- C1 (amended): for every model file of the source walk, the copier
copies it to its mirrored path under the destination root exactly when no
destination file exists there or `filecmp.cmp` — at its default
`shallow=True` — reports a difference; a destination file whose stat
signature (size, mtime) matches the source is skipped without its bytes
being compared, so byte-level difference alone does not trigger a copy. -/
theorem copier_copy_condition_filecmp (fs : FileSys) (src dst : Path)
    (hnd : (fs.files.map Prod.fst).Nodup)
    (t : Path × String × FileData) (ht : t ∈ osWalk fs src)
    (hm : isModelName t.2.1 = true) :
    dstPathOf src dst t ∈ (copyUpdatedModels fs src dst).2 ↔
      (fileLookup fs (dstPathOf src dst t) = none ∨
        ∃ d0, fileLookup fs (dstPathOf src dst t) = some d0 ∧
          filecmpCmp t.2.2 d0 = false) := by
  rw [← needsCopy_iff]
  show dstPathOf src dst t ∈ (copyRun src dst fs (osWalk fs src)).2 ↔ _
  exact copyRun_mem_iff src dst (osWalk fs src) fs
    (osWalk_paths_nodup fs src hnd)
    (fun t' ht' => (osWalk_mem fs src t' ht').1) t ht hm

/-- C1 counterexample: destination `d/a.stl` has the same size and mtime as
source `s/a.stl` but different bytes — content differs, yet the copier
performs no copy, because shallow `filecmp.cmp` deems the files equal from
their stat signatures alone.  This refutes the claim that the copy happens
exactly when the contents (byte equality) differ. -/
theorem copier_shallow_cmp_counterexample :
    (copyUpdatedModels
        ⟨[["s"], ["d"]],
          [(["s", "a.stl"], ⟨[1], 7⟩), (["d", "a.stl"], ⟨[2], 7⟩)]⟩
        ["s"] ["d"]).2 = [] ∧
    ((["s"] : Path), "a.stl", (⟨[1], 7⟩ : FileData)) ∈
      osWalk ⟨[["s"], ["d"]],
        [(["s", "a.stl"], ⟨[1], 7⟩), (["d", "a.stl"], ⟨[2], 7⟩)]⟩ ["s"] ∧
    isModelName "a.stl" = true ∧
    fileLookup ⟨[["s"], ["d"]],
        [(["s", "a.stl"], ⟨[1], 7⟩), (["d", "a.stl"], ⟨[2], 7⟩)]⟩
      (dstPathOf ["s"] ["d"] (["s"], "a.stl", ⟨[1], 7⟩)) = some ⟨[2], 7⟩ ∧
    (⟨[1], 7⟩ : FileData).content ≠ (⟨[2], 7⟩ : FileData).content :=
  ⟨rfl, by decide, by decide, rfl, by decide⟩

theorem copier_copy_condition_filecmp_witness :
    dstPathOf ["s"] ["d"] (["s"], "a.stl", ⟨[1], 7⟩) ∈
      (copyUpdatedModels ⟨[["s"]], [(["s", "a.stl"], ⟨[1], 7⟩)]⟩
        ["s"] ["d"]).2 ↔
      (fileLookup ⟨[["s"]], [(["s", "a.stl"], ⟨[1], 7⟩)]⟩
          (dstPathOf ["s"] ["d"] (["s"], "a.stl", ⟨[1], 7⟩)) = none ∨
        ∃ d0, fileLookup ⟨[["s"]], [(["s", "a.stl"], ⟨[1], 7⟩)]⟩
            (dstPathOf ["s"] ["d"] (["s"], "a.stl", ⟨[1], 7⟩)) = some d0 ∧
          filecmpCmp ⟨[1], 7⟩ d0 = false) :=
  copier_copy_condition_filecmp ⟨[["s"]], [(["s", "a.stl"], ⟨[1], 7⟩)]⟩
    ["s"] ["d"] (by decide) (["s"], "a.stl", ⟨[1], 7⟩) (by decide) (by decide)

/-- C2 (amended): two independent facts.  A nonexistent source root makes
the copier walk nothing — `os.walk` swallows the `os.listdir` error under
its default `onerror=None` — so, whatever the destination, it completes
without failing and performs no copy; and a nonexistent destination root
makes the updater walk nothing and still complete, returning (and writing)
the loaded map unchanged.  Neither run fails. -/
theorem missing_roots_noop (fs : FileSys) (src dst mapf : Path)
    (disk : Option CMap) :
    (dirExists fs src = false → copyUpdatedModels fs src dst = (fs, [])) ∧
      (dirExists fs dst = false →
        updateMapFile disk mapf fs dst = .ok (disk.getD [])) := by
  constructor
  · intro hs
    have hw : osWalk fs src = [] := by simp [osWalk, hs]
    show copyRun src dst fs (osWalk fs src) = (fs, [])
    rw [hw]
    rfl
  · intro hd
    have hw2 : osWalk fs dst = [] := by simp [osWalk, hd]
    show processWalk mapf.dropLast (disk.getD []) (walkNames fs dst)
      = .ok (disk.getD [])
    rw [walkNames, hw2]
    rfl

/-- C2 counterexample: with an empty filesystem neither root exists, yet
the copier returns normally having copied nothing, and the updater returns
normally with the loaded map intact — neither operation fails, refuting the
claim that a missing source root (copier) or missing destination root
(updater) makes the program fail. -/
theorem missing_roots_no_failure_counterexample :
    dirExists (⟨[], []⟩ : FileSys) ["h", "src"] = false ∧
    dirExists (⟨[], []⟩ : FileSys) ["h", "dest"] = false ∧
    copyUpdatedModels ⟨[], []⟩ ["h", "src"] ["h", "dest"] = (⟨[], []⟩, []) ∧
    updateMapFile (some [("W", ⟨some "W.stl", none⟩)]) ["h", "component.js"]
      ⟨[], []⟩ ["h", "dest"] = .ok [("W", ⟨some "W.stl", none⟩)] :=
  ⟨rfl, rfl, rfl, rfl⟩

theorem missing_roots_noop_witness :
    copyUpdatedModels
        ⟨[["h", "dest2"]], [(["h", "dest2", "a.stl"], ⟨[1], 2⟩)]⟩
        ["h", "src2"] ["h", "dest2"]
        = (⟨[["h", "dest2"]], [(["h", "dest2", "a.stl"], ⟨[1], 2⟩)]⟩, []) ∧
      updateMapFile none ["h", "component.js"]
        ⟨[["h", "dest2"]], [(["h", "dest2", "a.stl"], ⟨[1], 2⟩)]⟩
        ["h", "gone"] = .ok ((none : Option CMap).getD []) :=
  ⟨(missing_roots_noop
      ⟨[["h", "dest2"]], [(["h", "dest2", "a.stl"], ⟨[1], 2⟩)]⟩
      ["h", "src2"] ["h", "dest2"] ["h", "component.js"] none).1 rfl,
    (missing_roots_noop
      ⟨[["h", "dest2"]], [(["h", "dest2", "a.stl"], ⟨[1], 2⟩)]⟩
      ["h", "src2"] ["h", "gone"] ["h", "component.js"] none).2 rfl⟩

/-- C7: a file is treated as a model file exactly when its
`os.path.splitext` extension is the case-sensitive `.stl` or `.STL`; any
other casing (such as `.Stl`) makes both the copier and the updater skip
the file entirely. -/
theorem model_extension_case_sensitive :
    (∀ name : String, isModelName name = true ↔
      ((splitext name).2 = ".stl" ∨ (splitext name).2 = ".STL")) ∧
    (∀ (src dst : Path) (fs : FileSys) (t : Path × String × FileData),
      isModelName t.2.1 = false → copyOne src dst fs t = (fs, none)) ∧
    (∀ (d : Path) (m : CMap) (f : Path × String),
      isModelFile f = false → updateStep d m f = .ok m) ∧
    isModelName "part.Stl" = false ∧ isModelName "part.stl" = true ∧
    isModelName "part.STL" = true := by
  refine ⟨?_, copyOne_not_model, updateStep_not_model,
    by decide, by decide, by decide⟩
  intro name
  simp [isModelName, modelExts]

theorem model_extension_case_sensitive_witness :
    copyOne ["s"] ["d"] ⟨[], []⟩ (["s"], "part.Stl", ⟨[], 0⟩)
        = (⟨[], []⟩, none) ∧
      updateStep ["h"] [] (["s"], "part.Stl") = .ok [] ∧
      (isModelName "part.stl" = true ↔
        ((splitext "part.stl").2 = ".stl" ∨ (splitext "part.stl").2 = ".STL")) :=
  ⟨model_extension_case_sensitive.2.1 ["s"] ["d"] ⟨[], []⟩
      (["s"], "part.Stl", ⟨[], 0⟩) (by decide),
    model_extension_case_sensitive.2.2.1 ["h"] [] (["s"], "part.Stl")
      (by decide),
    model_extension_case_sensitive.1 "part.stl"⟩

/-- C9: a dotfile named exactly `.stl` or `.STL` has its whole name taken
as the `os.path.splitext` stem and an empty extension, so it is not a model
file: the copier never copies it and the updater never indexes it. -/
theorem dotfile_not_model :
    splitext ".stl" = (".stl", "") ∧ splitext ".STL" = (".STL", "") ∧
    isModelName ".stl" = false ∧ isModelName ".STL" = false ∧
    (∀ (src dst : Path) (fs : FileSys) (dir : Path) (data : FileData),
      copyOne src dst fs (dir, ".stl", data) = (fs, none) ∧
      copyOne src dst fs (dir, ".STL", data) = (fs, none)) ∧
    (∀ (d : Path) (m : CMap) (dir : Path),
      updateStep d m (dir, ".stl") = .ok m ∧
      updateStep d m (dir, ".STL") = .ok m) := by
  refine ⟨by decide, by decide, by decide, by decide, ?_, ?_⟩
  · intro src dst fs dir data
    exact ⟨copyOne_not_model src dst fs (dir, ".stl", data)
        (show isModelName ".stl" = false by decide),
      copyOne_not_model src dst fs (dir, ".STL", data)
        (show isModelName ".STL" = false by decide)⟩
  · intro d m dir
    exact ⟨updateStep_not_model d m (dir, ".stl")
        (show isModelName ".stl" = false by decide),
      updateStep_not_model d m (dir, ".STL")
        (show isModelName ".STL" = false by decide)⟩

end UpdateModelRepo
